import Mathlib

/-!
Verification of the AEGIS curation scripts.

This file gives a shallow embedding, in Lean 4, of the core logic of the
repository's Python sources:

* source/compare_aegis_sheets.py : clean_ena_field_list (the vocabulary term
  normalizer), _is_truthy (the truthy value coercer) and the set computations
  performed by process();
* source/get_ena_checklist_details.py : the pure data transformations inside
  ENASchemaStoreClient.list_field_names, get_latest_field_details and
  list_schemas (the HTTP fetch is abstracted away: each operation is modelled
  as a function of the JSON page it fetched).

Python strings are modelled as List Char; heterogeneous spreadsheet cells as
the inductive type PyVal.  Only the ASCII whitespace characters are treated
as whitespace, for both the regex class (backslash-s) and str.strip; the
inputs this program handles are ASCII.
-/

/-- ASCII whitespace, the characters stripped by Python str.strip and matched
by the regex whitespace class for the ASCII data this program processes. -/
def isPySpace (c : Char) : Bool :=
  c == ' ' || c == '\t' || c == '\n' || c == '\r' || c == '\x0b' || c == '\x0c'

/-- Python str.strip(): remove leading and trailing whitespace. -/
def pyStrip (s : List Char) : List Char :=
  ((s.dropWhile isPySpace).reverse.dropWhile isPySpace).reverse

/-- Python str.lower() restricted to ASCII case mapping. -/
def pyLower (s : List Char) : List Char :=
  s.map Char.toLower

/-- The double-quote character, written via its code point. -/
def quoteChar : Char := Char.ofNat 34

/-- Decimal digits of a natural number, with an explicit fuel argument so the
definition is structural (fuel at least the number itself is always enough). -/
def natCharsAux : Nat → Nat → List Char
  | 0, m => [Nat.digitChar m]
  | fuel + 1, m =>
    if m < 10 then [Nat.digitChar m]
    else natCharsAux fuel (m / 10) ++ [Nat.digitChar (m % 10)]

/-- Decimal representation of a natural number, as Python str() renders it. -/
def natChars (m : Nat) : List Char := natCharsAux m m

/-- Decimal representation of an integer, as Python str() renders it. -/
def intChars : Int → List Char
  | .ofNat m => natChars m
  | .negSucc m => '-' :: natChars (m + 1)

/-- A heterogeneous Python cell value as read from a spreadsheet column:
None, a bool, an int, a float (tagged with whether it is NaN, and carrying
its Python str() rendering when it is not), or a string. -/
inductive PyVal where
  | pynone : PyVal
  | pybool (b : Bool) : PyVal
  | pyint (n : Int) : PyVal
  | pyfloat (isNan : Bool) (repr : List Char) : PyVal
  | pystr (s : List Char) : PyVal
deriving DecidableEq

/-- Python str() applied to a PyVal.  str of a NaN float is "nan"; a non-NaN
float carries its own rendering. -/
def pyStr : PyVal → List Char
  | .pynone => "None".data
  | .pybool true => "True".data
  | .pybool false => "False".data
  | .pyint n => intChars n
  | .pyfloat true _ => "nan".data
  | .pyfloat false r => r
  | .pystr s => s

/-- The placeholder alternatives of the non_terms_pattern regex in
clean_ena_field_list, in lower case. -/
def nonTermsTokens : List (List Char) :=
  ["?".data, "tbd".data, "n.a.".data, "n.a.?".data, "eh?".data, "not_needed".data]

/-- Matching against the anchored regex
whitespace* (? | TBD | N.A. | N.A.? | eh? | not_needed) whitespace* with
re.IGNORECASE: since no alternative starts or ends with whitespace, a string
matches exactly when stripping surrounding whitespace and lower-casing yields
one of the alternatives. -/
def non_terms_match (s : List Char) : Bool :=
  decide (pyLower (pyStrip s) ∈ nonTermsTokens)

/-- One loop iteration of clean_ena_field_list in compare_aegis_sheets.py:
None and NaN are skipped; a value whose str() matches the placeholder pattern
is skipped; otherwise, if the string contains a plus sign, the part before the
first plus sign has double quotes removed and is stripped, else the whole
string is stripped.  Returns the element contributed to the result set. -/
def clean_ena_field_item (item : PyVal) : Option (List Char) :=
  match item with
  | .pynone => none
  | .pyfloat true _ => none
  | v =>
    let s := pyStr v
    if non_terms_match s then none
    else if '+' ∈ s then
      some (pyStrip ((s.takeWhile (· != '+')).filter (· != quoteChar)))
    else some (pyStrip s)

/-- clean_ena_field_list from compare_aegis_sheets.py: the set of cleaned
terms contributed by the members of the input list (the Python function
returns list(set); we model the resulting set directly). -/
def clean_ena_field_list (field_list : List PyVal) : Finset (List Char) :=
  (field_list.filterMap clean_ena_field_item).toFinset

/-- The A-list of claim C2: the raw terms temp, ph, +x, TBD. -/
def c2AList : List PyVal :=
  [.pystr "temp".data, .pystr "ph".data, .pystr "+x".data, .pystr "TBD".data]

/-- The B-list of claim C2: the raw terms temp, depth. -/
def c2BList : List PyVal :=
  [.pystr "temp".data, .pystr "depth".data]

/-- The ten decimal digit characters. -/
def digitChars : List Char := "0123456789".data

/-- The truthy strings recognised by _is_truthy. -/
def truthyStrings : List (List Char) :=
  ["true".data, "t".data, "yes".data, "y".data, "1".data]

/-- _is_truthy from compare_aegis_sheets.py: bools map to themselves, None
and NaN to false, ints to the test for exact equality with 1, and every
other value is stringified, stripped, lower-cased and tested for membership
in the truthy strings. -/
def _is_truthy (v : PyVal) : Bool :=
  match v with
  | .pybool b => b
  | .pynone => false
  | .pyfloat true _ => false
  | .pyint n => decide (n = 1)
  | v => decide (pyLower (pyStrip (pyStr v)) ∈ truthyStrings)

/-- Modelled from the claim C4 wording: true exactly when the value is the
boolean True, or an integer exactly equal to 1, or its stringified, trimmed
and lower-cased form is one of the truthy strings. -/
def is_truthy_spec (v : PyVal) : Bool :=
  decide (v = .pybool true) ||
    (match v with
     | .pyint n => decide (n = 1)
     | _ => false) ||
    decide (pyLower (pyStrip (pyStr v)) ∈ truthyStrings)

/-- Python string comparison, strict: lexicographic by code point, a proper
initial segment being smaller. -/
def strLtB : List Char → List Char → Bool
  | [], [] => false
  | [], _ :: _ => true
  | _ :: _, [] => false
  | a :: as, b :: bs =>
    if a < b then true else if b < a then false else strLtB as bs

/-- Python string comparison, non-strict. -/
def strLeB (a b : List Char) : Bool := !strLtB b a

/-- Python tuple comparison on a (string, int) sort key, strict. -/
def keyLtB (a b : List Char × Int) : Bool :=
  strLtB a.1 b.1 || (decide (a.1 = b.1) && decide (a.2 < b.2))

/-- Python tuple comparison on a (string, int) sort key, non-strict. -/
def keyLeB (a b : List Char × Int) : Bool := !keyLtB b a

/-- One field record of the schema-store fields page: the label,
lastModifiedDate and version attributes, each possibly absent. -/
structure FieldRecord where
  label : Option (List Char)
  lastModifiedDate : Option (List Char)
  version : Option Int
deriving DecidableEq

/-- Python falsy-or on an optional string: None and the empty string both
fall back to the default. -/
def pyOrStr (o : Option (List Char)) (d : List Char) : List Char :=
  match o with
  | none => d
  | some s => if s = [] then d else s

/-- Python falsy-or on an optional int: None and 0 both fall back to the
default. -/
def pyOrInt (o : Option Int) (d : Int) : Int :=
  match o with
  | none => d
  | some n => if n = 0 then d else n

/-- sort_key from get_latest_field_details: the pair
(lastModifiedDate or empty string, version or -1), where or is Python's
falsy-or, so an absent or empty date gives the empty string and an absent
or zero version gives -1. -/
def sort_key (f : FieldRecord) : List Char × Int :=
  (pyOrStr f.lastModifiedDate [], pyOrInt f.version (-1))

/-- Ordering modelling matched.sort(key=sort_key, reverse=True): f may come
before g exactly when f's key is at least g's.  Python's sort is stable, so
records with equal keys keep their original order; a stable sort with
respect to this relation is exactly what list.sort with reverse=True
produces. -/
def latestRel (f g : FieldRecord) : Prop :=
  keyLeB (sort_key g) (sort_key f) = true

instance : DecidableRel latestRel := fun f g =>
  instDecidableEqBool (keyLeB (sort_key g) (sort_key f)) true

/-- get_latest_field_details from get_ena_checklist_details.py: filter the
fetched page to exact label matches, stably sort descending by sort_key,
and return the first element; None when no record matches. -/
def get_latest_field_details (fields : List FieldRecord) (field_name : List Char) :
    Option FieldRecord :=
  match List.insertionSort latestRel
      (fields.filter (fun f => decide (f.label = some field_name))) with
  | [] => none
  | f :: _ => some f

/-- Modelled from the claim C5 wording: the sort key with a missing
lastModifiedDate treated as the empty string and a missing version treated
as -1, present values kept as they are. -/
def claim_key (f : FieldRecord) : List Char × Int :=
  (f.lastModifiedDate.getD [], f.version.getD (-1))

/-- Decidable rendering of claim C5 at one input page and label: the result
is absent exactly when no record matches the label, and any returned record
is an exact-label match whose claim_key is greatest among the matches. -/
def latestClaimHolds (fields : List FieldRecord) (field_name : List Char) : Bool :=
  match get_latest_field_details fields field_name with
  | none => decide (fields.filter (fun f => decide (f.label = some field_name)) = [])
  | some r =>
    decide (r ∈ fields.filter (fun f => decide (f.label = some field_name))) &&
      (fields.filter (fun f => decide (f.label = some field_name))).all
        (fun g => keyLeB (claim_key g) (claim_key r))

/-- Case-insensitive order on labels used by list_field_names: compare the
lower-cased strings. -/
def labelRel (a b : List Char) : Prop :=
  strLeB (pyLower a) (pyLower b) = true

instance : DecidableRel labelRel := fun a b =>
  instDecidableEqBool (strLeB (pyLower a) (pyLower b)) true

/-- Label extraction in list_field_names: f.get("label") is kept when
truthy, i.e. present and non-empty. -/
def truthyLabel (f : FieldRecord) : Option (List Char) :=
  match f.label with
  | none => none
  | some l => if l = [] then none else some l

/-- list_field_names from get_ena_checklist_details.py: the truthy labels
of the fetched page, sorted case-insensitively (by lower-cased label) with
Python's stable sort. -/
def list_field_names (fields : List FieldRecord) : List (List Char) :=
  List.insertionSort labelRel (fields.filterMap truthyLabel)

/-- One value of the embedded schemas collection: either not a JSON object
(skipped by list_schemas), or an object with optional id, accession and
name attributes. -/
inductive SchemaVal where
  | nonDict : SchemaVal
  | dict (id : Option PyVal) (accession : Option (List Char))
      (name : Option (List Char)) : SchemaVal
deriving DecidableEq

/-- The embedded schemas collection of the schema-listing response: a keyed
mapping (an association list, iterated over its values in order), a
sequential list, or anything else (treated as empty). -/
inductive SchemasContainer where
  | dictC (entries : List (List Char × SchemaVal)) : SchemasContainer
  | listC (entries : List SchemaVal) : SchemasContainer
  | otherC : SchemasContainer
deriving DecidableEq

/-- list_schemas from get_ena_checklist_details.py: iterate the values of
the embedded collection (dict values in order, or list elements), skip
non-dict values and dicts without an id, and emit (str(id), accession,
name) triplets. -/
def list_schemas (c : SchemasContainer) :
    List (List Char × Option (List Char) × Option (List Char)) :=
  let values : List SchemaVal :=
    match c with
    | .dictC entries => entries.map Prod.snd
    | .listC entries => entries
    | .otherC => []
  values.filterMap
    (fun v => match v with
     | .nonDict => none
     | .dict id accession name =>
       match id with
       | none => none
       | some sid => some (pyStr sid, accession, name))

/-- The mandatory-coverage count logged by process() in
compare_aegis_sheets.py: the size of the mandatory baseline minus the size
of the part of the baseline missing from the term set. -/
def mandatory_covered_count (mandatory B : Finset (List Char)) : Nat :=
  mandatory.card - (mandatory \ B).card

/-- The missing mandatory fields reported by process(). -/
def mandatory_missing (mandatory B : Finset (List Char)) : Finset (List Char) :=
  mandatory \ B

/-- The ph record dated 2024-01-01 of claim C5. -/
def c5Rec2024 : FieldRecord := ⟨some "ph".data, some "2024-01-01".data, some 1⟩

/-- The ph record dated 2025-01-01 of claim C5. -/
def c5Rec2025 : FieldRecord := ⟨some "ph".data, some "2025-01-01".data, some 1⟩

/-- A record with no version attribute, sharing label and date with
cxRecVersion0. -/
def cxRecNoVersion : FieldRecord := ⟨some "x".data, some "2024-01-01".data, none⟩

/-- A record with version 0, sharing label and date with cxRecNoVersion. -/
def cxRecVersion0 : FieldRecord := ⟨some "x".data, some "2024-01-01".data, some 0⟩

/-- The mandatory baseline of the C6 example. -/
def c6M : Finset (List Char) := {"a".data, "b".data, "c".data}

/-- The term set of the C6 example. -/
def c6B : Finset (List Char) := {"a".data, "c".data}

/- ------------------------------------------------------------------ -/
/- Helper lemmas about stripping.                                      -/
/- ------------------------------------------------------------------ -/

theorem dropWhile_dropWhile (p : α → Bool) (l : List α) :
    (l.dropWhile p).dropWhile p = l.dropWhile p := by
  induction l with
  | nil => rfl
  | cons a t ih =>
    by_cases h : p a
    · simp [List.dropWhile_cons, h, ih]
    · simp [List.dropWhile_cons, h]

theorem dropWhile_eq_self_left (p : α → Bool) (x y : List α)
    (h : (x ++ y).dropWhile p = x ++ y) : x.dropWhile p = x := by
  cases x with
  | nil => rfl
  | cons a t =>
    by_cases hp : p a
    · exfalso
      rw [List.cons_append, List.dropWhile_cons, if_pos hp] at h
      have hlen : ((t ++ y).dropWhile p).length ≤ (t ++ y).length :=
        (List.dropWhile_sublist p).length_le
      rw [h] at hlen
      simp at hlen
    · rw [List.dropWhile_cons, if_neg hp]

theorem mem_of_mem_pyStrip {c : Char} {s : List Char} (h : c ∈ pyStrip s) :
    c ∈ s := by
  unfold pyStrip at h
  rw [List.mem_reverse] at h
  have h2 := (List.dropWhile_sublist isPySpace).subset h
  rw [List.mem_reverse] at h2
  exact (List.dropWhile_sublist isPySpace).subset h2

theorem pyStrip_pyStrip (s : List Char) : pyStrip (pyStrip s) = pyStrip s := by
  have hu : (s.dropWhile isPySpace).dropWhile isPySpace = s.dropWhile isPySpace :=
    dropWhile_dropWhile isPySpace s
  set u := s.dropWhile isPySpace with hudef
  set v := u.reverse.dropWhile isPySpace with hvdef
  obtain ⟨t, ht⟩ := List.dropWhile_suffix (l := u.reverse) isPySpace
  have hu2 : u = v.reverse ++ t.reverse := by
    have := congrArg List.reverse ht
    simpa using this.symm
  have hA : v.reverse.dropWhile isPySpace = v.reverse := by
    apply dropWhile_eq_self_left isPySpace v.reverse t.reverse
    rw [← hu2]
    exact hu
  have hB : v.dropWhile isPySpace = v := by
    rw [hvdef]
    exact dropWhile_dropWhile isPySpace u.reverse
  show ((v.reverse.dropWhile isPySpace).reverse.dropWhile isPySpace).reverse = v.reverse
  rw [hA, List.reverse_reverse, hB]

/-- A string with no whitespace anywhere is unchanged by stripping. -/
theorem pyStrip_of_no_space {s : List Char}
    (h : ∀ c ∈ s, isPySpace c = false) : pyStrip s = s := by
  have hdrop : ∀ (l : List Char), (∀ c ∈ l, isPySpace c = false) →
      l.dropWhile isPySpace = l := by
    intro l hl
    cases l with
    | nil => rfl
    | cons a t => rw [List.dropWhile_cons, if_neg (by simp [hl a (by simp)])]
  unfold pyStrip
  rw [hdrop s h]
  rw [hdrop s.reverse (by intro c hc; exact h c (List.mem_reverse.mp hc))]
  exact List.reverse_reverse s

/-- A string all of whose characters are fixed by Char.toLower is unchanged
by pyLower. -/
theorem pyLower_of_fixed {s : List Char}
    (h : ∀ c ∈ s, Char.toLower c = c) : pyLower s = s := by
  unfold pyLower
  conv_rhs => rw [← List.map_id s]
  exact List.map_congr_left h

/- ------------------------------------------------------------------ -/
/- Properties of clean_ena_field_list members.                         -/
/- ------------------------------------------------------------------ -/

theorem clean_item_props {item : PyVal} {x : List Char}
    (h : clean_ena_field_item item = some x) : pyStrip x = x ∧ '+' ∉ x := by
  have main : ∀ (v : PyVal),
      (if non_terms_match (pyStr v) then none
       else if '+' ∈ pyStr v then
         some (pyStrip (((pyStr v).takeWhile (· != '+')).filter (· != quoteChar)))
       else some (pyStrip (pyStr v))) = some x →
      pyStrip x = x ∧ '+' ∉ x := by
    intro v hv
    by_cases h1 : non_terms_match (pyStr v)
    · rw [if_pos h1] at hv; cases hv
    · rw [if_neg h1] at hv
      by_cases h2 : '+' ∈ pyStr v
      · rw [if_pos h2] at hv
        have hx : x = pyStrip (((pyStr v).takeWhile (· != '+')).filter (· != quoteChar)) :=
          (Option.some_inj.mp hv).symm
        subst hx
        refine ⟨pyStrip_pyStrip _, ?_⟩
        intro hplus
        have := mem_of_mem_pyStrip hplus
        rw [List.mem_filter] at this
        have := List.mem_takeWhile_imp this.1
        simp at this
      · rw [if_neg h2] at hv
        have hx : x = pyStrip (pyStr v) := (Option.some_inj.mp hv).symm
        subst hx
        exact ⟨pyStrip_pyStrip _, fun hplus => h2 (mem_of_mem_pyStrip hplus)⟩
  cases item with
  | pynone => cases h
  | pybool b => exact main (.pybool b) h
  | pyint n => exact main (.pyint n) h
  | pyfloat isNan r =>
    cases isNan with
    | true => cases h
    | false => exact main (.pyfloat false r) h
  | pystr s => exact main (.pystr s) h

theorem clean_mem_props {L : List PyVal} {x : List Char}
    (hx : x ∈ clean_ena_field_list L) : pyStrip x = x ∧ '+' ∉ x := by
  rw [clean_ena_field_list, List.mem_toFinset, List.mem_filterMap] at hx
  obtain ⟨v, _, hsome⟩ := hx
  exact clean_item_props hsome

/-- A string that is already stripped, contains no plus sign, and does not
match the placeholder pattern is kept verbatim by the cleaning step. -/
theorem clean_item_pystr {y : List Char} (hstrip : pyStrip y = y)
    (hplus : '+' ∉ y) (hpat : non_terms_match y = false) :
    clean_ena_field_item (PyVal.pystr y) = some y := by
  show (if non_terms_match (pyStr (.pystr y)) then none
        else if '+' ∈ pyStr (.pystr y) then
          some (pyStrip (((pyStr (.pystr y)).takeWhile (· != '+')).filter (· != quoteChar)))
        else some (pyStrip (pyStr (.pystr y)))) = some y
  rw [show pyStr (.pystr y) = y from rfl, hpat]
  simp only [Bool.false_eq_true, if_false, if_neg hplus, hstrip]

/- ------------------------------------------------------------------ -/
/- Claims C1, C2, C3.                                                  -/
/- ------------------------------------------------------------------ -/

/-- C1 is false as stated: on the input list consisting of a single blank
string the normalizer produces the empty string as a member, and on the input
list ["TBD+x"] it produces the placeholder token TBD itself (the placeholder
filter runs on the raw string, before the plus-truncation). -/
theorem aegis_C1_counterexample :
    ([] : List Char) ∈ clean_ena_field_list [PyVal.pystr " ".data] ∧
    "TBD".data ∈ clean_ena_field_list [PyVal.pystr "TBD+x".data] ∧
    pyLower "TBD".data ∈ nonTermsTokens := by
  decide

/-- C1 (amended): every member of the set produced by clean_ena_field_list
has no leading or trailing whitespace and contains no plus character.  The
original claim's non-emptiness and placeholder-freeness do not hold (see the
counterexample): a whitespace-only input contributes the empty string, and a
placeholder followed by a plus suffix survives as the bare placeholder. -/
theorem aegis_C1_theorem (L : List PyVal) (x : List Char)
    (hx : x ∈ clean_ena_field_list L) : pyStrip x = x ∧ '+' ∉ x :=
  clean_mem_props hx

/-- Witness for C1 at a concrete input. -/
theorem aegis_C1_witness :
    pyStrip "temp".data = "temp".data ∧ '+' ∉ "temp".data :=
  aegis_C1_theorem [PyVal.pystr "temp".data] "temp".data (by decide)

/-- C2 is false as stated: on the A-list [temp, ph, +x, TBD] the normalizer
does not return the two-element set described by the claim; the entry +x
contributes the empty string (the text before the first plus sign, stripped). -/
theorem aegis_C2_counterexample :
    clean_ena_field_list c2AList ≠ {"temp".data, "ph".data} := by
  decide

/-- C2 (amended): on the A-list [temp, ph, +x, TBD] and B-list [temp, depth],
the normalizer yields exactly the set containing temp, ph and the empty string;
the common set is exactly the singleton temp; the A-only set is exactly the set
containing ph and the empty string; and the B-only set is exactly the
singleton depth. -/
theorem aegis_C2_theorem :
    clean_ena_field_list c2AList = {"temp".data, "ph".data, ([] : List Char)} ∧
    clean_ena_field_list c2AList ∩ clean_ena_field_list c2BList = {"temp".data} ∧
    clean_ena_field_list c2AList \ clean_ena_field_list c2BList =
      {"ph".data, ([] : List Char)} ∧
    clean_ena_field_list c2BList \ clean_ena_field_list c2AList = {"depth".data} := by
  decide

/-- C3 is false as stated: the normalizer is not idempotent.  On the input
list ["TBD+x"] one application yields the singleton set containing TBD, and a
second application removes TBD (now matching the placeholder pattern),
yielding a different set. -/
theorem aegis_C3_counterexample :
    ["TBD".data].toFinset = clean_ena_field_list [PyVal.pystr "TBD+x".data] ∧
    clean_ena_field_list (["TBD".data].map PyVal.pystr) ≠
      clean_ena_field_list [PyVal.pystr "TBD+x".data] := by
  decide

/-- C3 (amended): the normalizer is idempotent on every input list whose
cleaned output contains no member matching the placeholder pattern (this
excludes exactly the lists containing a placeholder followed by a plus
suffix, such as TBD+x, on which idempotence fails as shown by the
counterexample): for any list representation of the output, re-cleaning it
returns the same set. -/
theorem aegis_C3_theorem (L : List PyVal) (out : List (List Char))
    (hout : out.toFinset = clean_ena_field_list L)
    (hclean : ∀ x ∈ clean_ena_field_list L, non_terms_match x = false) :
    clean_ena_field_list (out.map PyVal.pystr) = clean_ena_field_list L := by
  apply Finset.ext
  intro x
  constructor
  · intro hx
    rw [clean_ena_field_list, List.mem_toFinset, List.mem_filterMap] at hx
    obtain ⟨v, hv, hsome⟩ := hx
    rw [List.mem_map] at hv
    obtain ⟨y, hy, rfl⟩ := hv
    have hyL : y ∈ clean_ena_field_list L := by
      rw [← hout]; exact List.mem_toFinset.mpr hy
    obtain ⟨hstrip, hplus⟩ := clean_mem_props hyL
    rw [clean_item_pystr hstrip hplus (hclean y hyL)] at hsome
    cases hsome
    exact hyL
  · intro hx
    have hy : x ∈ out := by
      rw [← List.mem_toFinset, hout]; exact hx
    obtain ⟨hstrip, hplus⟩ := clean_mem_props hx
    rw [clean_ena_field_list, List.mem_toFinset, List.mem_filterMap]
    exact ⟨PyVal.pystr x, List.mem_map_of_mem _ hy,
      clean_item_pystr hstrip hplus (hclean x hx)⟩

/-- Witness for C3 at a concrete input. -/
theorem aegis_C3_witness :
    clean_ena_field_list (["temp".data].map PyVal.pystr) =
      clean_ena_field_list [PyVal.pystr "temp".data] :=
  aegis_C3_theorem [PyVal.pystr "temp".data] ["temp".data] (by decide) (by decide)

/- ------------------------------------------------------------------ -/
/- Decimal representations: helper lemmas for claim C4.                -/
/- ------------------------------------------------------------------ -/

theorem digitChar_mem_digitChars : ∀ m, m < 10 → Nat.digitChar m ∈ digitChars := by
  decide

theorem natCharsAux_mem (fuel : Nat) : ∀ m, m ≤ fuel →
    ∀ c ∈ natCharsAux fuel m, c ∈ digitChars := by
  induction fuel with
  | zero =>
    intro m hm c hc
    interval_cases m
    simp only [natCharsAux, List.mem_singleton] at hc
    subst hc
    exact digitChar_mem_digitChars 0 (by omega)
  | succ fuel ih =>
    intro m hm c hc
    simp only [natCharsAux] at hc
    by_cases h10 : m < 10
    · rw [if_pos h10] at hc
      rw [List.mem_singleton] at hc
      subst hc
      exact digitChar_mem_digitChars m h10
    · rw [if_neg h10] at hc
      rcases List.mem_append.mp hc with h | h
      · exact ih (m / 10) (by omega) c h
      · rw [List.mem_singleton] at h
        subst h
        exact digitChar_mem_digitChars (m % 10) (Nat.mod_lt _ (by omega))

theorem natCharsAux_ne_nil (fuel m : Nat) : natCharsAux fuel m ≠ [] := by
  cases fuel with
  | zero => simp [natCharsAux]
  | succ fuel =>
    simp only [natCharsAux]
    split
    · simp
    · simp

theorem natCharsAux_eq_one (fuel : Nat) : ∀ m, m ≤ fuel →
    (natCharsAux fuel m = ['1'] ↔ m = 1) := by
  induction fuel with
  | zero =>
    intro m hm
    interval_cases m
    decide
  | succ fuel ih =>
    intro m hm
    by_cases h10 : m < 10
    · have key : ∀ k, k < 10 → ([Nat.digitChar k] = ['1'] ↔ k = 1) := by decide
      simp only [natCharsAux, if_pos h10]
      exact key m h10
    · simp only [natCharsAux, if_neg h10]
      constructor
      · intro h
        exfalso
        have hlen := congrArg List.length h
        simp only [List.length_append, List.length_singleton] at hlen
        exact natCharsAux_ne_nil fuel (m / 10)
          (List.length_eq_zero.mp (by omega))
      · intro h
        omega

theorem intChars_mem (n : Int) : ∀ c ∈ intChars n, c ∈ '-' :: digitChars := by
  cases n with
  | ofNat m =>
    intro c hc
    simp only [intChars, natChars] at hc
    exact List.mem_cons_of_mem _ (natCharsAux_mem m m le_rfl c hc)
  | negSucc m =>
    intro c hc
    simp only [intChars, natChars] at hc
    rcases List.mem_cons.mp hc with h | h
    · subst h
      exact List.mem_cons_self _ _
    · exact List.mem_cons_of_mem _ (natCharsAux_mem (m + 1) (m + 1) le_rfl c h)

theorem intChars_eq_one (n : Int) : intChars n = ['1'] ↔ n = 1 := by
  cases n with
  | ofNat m =>
    simp only [intChars, natChars]
    rw [natCharsAux_eq_one m m le_rfl, Int.ofNat_eq_coe]
    omega
  | negSucc m =>
    simp only [intChars, natChars]
    constructor
    · intro h
      injection h with h1 _
      exact absurd h1 (by decide)
    · intro h
      rw [Int.negSucc_eq] at h
      omega

theorem intChars_truthy (n : Int) :
    (pyLower (pyStrip (intChars n)) ∈ truthyStrings) ↔ n = 1 := by
  have hmem := intChars_mem n
  have hfix : ∀ c ∈ '-' :: digitChars, isPySpace c = false ∧ Char.toLower c = c := by
    decide
  rw [pyStrip_of_no_space (fun c hc => (hfix c (hmem c hc)).1)]
  rw [pyLower_of_fixed (fun c hc => (hfix c (hmem c hc)).2)]
  constructor
  · intro h
    simp only [truthyStrings, List.mem_cons, List.not_mem_nil, or_false] at h
    rcases h with h | h | h | h | h
    · exact absurd (hmem 't' (by rw [h]; decide)) (by decide)
    · exact absurd (hmem 't' (by rw [h]; decide)) (by decide)
    · exact absurd (hmem 'y' (by rw [h]; decide)) (by decide)
    · exact absurd (hmem 'y' (by rw [h]; decide)) (by decide)
    · exact (intChars_eq_one n).mp h
  · intro h
    subst h
    decide

/- ------------------------------------------------------------------ -/
/- Claims C4 and C9.                                                   -/
/- ------------------------------------------------------------------ -/

/-- C4: the truthy value coercer (_is_truthy) is a total boolean function,
and it returns true exactly when the value is the boolean True, or an
integer exactly equal to 1, or its stringified, trimmed and lower-cased form
is one of true, t, yes, y, 1; in every other case, including None, NaN, the
boolean False and every integer other than 1, it returns false. -/
theorem aegis_C4_theorem (v : PyVal) : _is_truthy v = is_truthy_spec v := by
  cases v with
  | pynone => decide
  | pybool b => cases b <;> decide
  | pyint n =>
    simp only [_is_truthy, is_truthy_spec]
    by_cases h : n = 1
    · subst h
      decide
    · have h3 : (pyLower (pyStrip (pyStr (.pyint n))) ∈ truthyStrings) ↔ False := by
        simpa [pyStr, h] using intChars_truthy n
      simp [h, h3]
  | pyfloat isNan r =>
    cases isNan with
    | true =>
      simp only [_is_truthy, is_truthy_spec, pyStr]
      norm_num
      exact ⟨by simp, by decide⟩
    | false => simp [_is_truthy, is_truthy_spec, pyStr]
  | pystr s => simp [_is_truthy, is_truthy_spec, pyStr]

/-- C9: the coercer distinguishes numeric types: the integer 1 coerces to
true, while the float 1.0, whose Python str() rendering is the string 1.0,
coerces to false, so two numerically equal inputs coerce differently. -/
theorem aegis_C9_theorem :
    _is_truthy (.pyint 1) = true ∧ _is_truthy (.pyfloat false "1.0".data) = false := by
  decide

/- ------------------------------------------------------------------ -/
/- Lexicographic order lemmas for the sort relations.                  -/
/- ------------------------------------------------------------------ -/

theorem strLtB_irrefl (a : List Char) : strLtB a a = false := by
  induction a with
  | nil => rfl
  | cons c t ih => simp [strLtB, lt_irrefl, ih]

theorem strLtB_asymm : ∀ {a b : List Char}, strLtB a b = true → strLtB b a = false := by
  intro a
  induction a with
  | nil =>
    intro b h
    cases b with
    | nil => simp [strLtB] at h
    | cons d u => rfl
  | cons x t ih =>
    intro b h
    cases b with
    | nil => simp [strLtB] at h
    | cons y u =>
      simp only [strLtB] at h ⊢
      by_cases hxy : x < y
      · rw [if_neg (lt_asymm hxy), if_pos hxy]
      · rw [if_neg hxy] at h
        by_cases hyx : y < x
        · rw [if_pos hyx] at h
          simp at h
        · rw [if_neg hyx] at h
          rw [if_neg hyx, if_neg hxy]
          exact ih h

theorem strLtB_trans : ∀ {a b c : List Char},
    strLtB a b = true → strLtB b c = true → strLtB a c = true := by
  intro a
  induction a with
  | nil =>
    intro b c h1 h2
    cases b with
    | nil => simp [strLtB] at h1
    | cons d u =>
      cases c with
      | nil => simp [strLtB] at h2
      | cons e w => simp [strLtB]
  | cons x t ih =>
    intro b c h1 h2
    cases b with
    | nil => simp [strLtB] at h1
    | cons y u =>
      cases c with
      | nil => simp [strLtB] at h2
      | cons z w =>
        simp only [strLtB] at h1 h2 ⊢
        by_cases hxy : x < y
        · by_cases hyz : y < z
          · rw [if_pos (lt_trans hxy hyz)]
          · rw [if_neg hyz] at h2
            by_cases hzy : z < y
            · rw [if_pos hzy] at h2
              simp at h2
            · have heq : y = z := le_antisymm (not_lt.mp hzy) (not_lt.mp hyz)
              rw [if_pos (heq ▸ hxy)]
        · rw [if_neg hxy] at h1
          by_cases hyx : y < x
          · rw [if_pos hyx] at h1
            simp at h1
          · have heq : x = y := le_antisymm (not_lt.mp hyx) (not_lt.mp hxy)
            rw [if_neg hyx] at h1
            subst heq
            by_cases hxz : x < z
            · rw [if_pos hxz]
            · rw [if_neg hxz] at h2 ⊢
              by_cases hzx : z < x
              · rw [if_pos hzx] at h2
                simp at h2
              · rw [if_neg hzx] at h2 ⊢
                exact ih h1 h2

theorem strLtB_conn : ∀ {a b : List Char},
    strLtB a b = false → strLtB b a = false → a = b := by
  intro a
  induction a with
  | nil =>
    intro b h1 _
    cases b with
    | nil => rfl
    | cons d u => simp [strLtB] at h1
  | cons x t ih =>
    intro b h1 h2
    cases b with
    | nil => simp [strLtB] at h2
    | cons y u =>
      simp only [strLtB] at h1 h2
      by_cases hxy : x < y
      · rw [if_pos hxy] at h1
        simp at h1
      · by_cases hyx : y < x
        · rw [if_pos hyx] at h2
          simp at h2
        · rw [if_neg hxy, if_neg hyx] at h1
          rw [if_neg hyx, if_neg hxy] at h2
          have hx : x = y := le_antisymm (not_lt.mp hyx) (not_lt.mp hxy)
          rw [hx, ih h1 h2]

theorem keyLtB_irrefl (a : List Char × Int) : keyLtB a a = false := by
  simp [keyLtB, strLtB_irrefl]

theorem keyLtB_asymm {a b : List Char × Int} (h : keyLtB a b = true) :
    keyLtB b a = false := by
  simp only [keyLtB, Bool.or_eq_true, Bool.and_eq_true, decide_eq_true_eq] at h
  rcases h with h | ⟨he, hlt⟩
  · have h1 := strLtB_asymm h
    have h2 : b.1 ≠ a.1 := by
      intro e
      rw [e, strLtB_irrefl] at h
      simp at h
    simp [keyLtB, h1, h2]
  · have h1 : strLtB b.1 a.1 = false := by
      rw [← he, strLtB_irrefl]
    have h2 : ¬ b.2 < a.2 := by omega
    simp [keyLtB, h1, h2]

theorem keyLtB_trans {a b c : List Char × Int} (h1 : keyLtB a b = true)
    (h2 : keyLtB b c = true) : keyLtB a c = true := by
  simp only [keyLtB, Bool.or_eq_true, Bool.and_eq_true, decide_eq_true_eq] at h1 h2 ⊢
  rcases h1 with h1 | ⟨he1, hl1⟩
  · rcases h2 with h2 | ⟨he2, hl2⟩
    · exact Or.inl (strLtB_trans h1 h2)
    · exact Or.inl (he2 ▸ h1)
  · rcases h2 with h2 | ⟨he2, hl2⟩
    · exact Or.inl (by rw [he1]; exact h2)
    · exact Or.inr ⟨he1.trans he2, lt_trans hl1 hl2⟩

theorem keyLtB_conn {a b : List Char × Int} (h1 : keyLtB a b = false)
    (h2 : keyLtB b a = false) : a = b := by
  cases hab : strLtB a.1 b.1 with
  | true =>
    rw [keyLtB, hab] at h1
    simp at h1
  | false =>
    cases hba : strLtB b.1 a.1 with
    | true =>
      rw [keyLtB, hba] at h2
      simp at h2
    | false =>
      have he : a.1 = b.1 := strLtB_conn hab hba
      rw [keyLtB, hab, he] at h1
      rw [keyLtB, hba] at h2
      rw [he] at h2
      simp at h1 h2
      have h3 : a.2 = b.2 := by omega
      exact Prod.ext he h3

theorem keyLeB_refl (a : List Char × Int) : keyLeB a a = true := by
  simp [keyLeB, keyLtB_irrefl]

theorem keyLeB_total (a b : List Char × Int) :
    keyLeB a b = true ∨ keyLeB b a = true := by
  cases h : keyLtB b a with
  | false => exact Or.inl (by simp [keyLeB, h])
  | true => exact Or.inr (by simp [keyLeB, keyLtB_asymm h])

theorem keyLeB_trans {a b c : List Char × Int} (h1 : keyLeB a b = true)
    (h2 : keyLeB b c = true) : keyLeB a c = true := by
  simp only [keyLeB, Bool.not_eq_true'] at h1 h2 ⊢
  cases hca : keyLtB c a with
  | false => rfl
  | true =>
    exfalso
    cases hab : keyLtB a b with
    | true =>
      have := keyLtB_trans hca hab
      rw [this] at h2
      cases h2
    | false =>
      have heq : a = b := keyLtB_conn hab h1
      rw [← heq] at h2
      rw [hca] at h2
      cases h2

theorem strLeB_refl (a : List Char) : strLeB a a = true := by
  simp [strLeB, strLtB_irrefl]

theorem strLeB_total (a b : List Char) : strLeB a b = true ∨ strLeB b a = true := by
  cases h : strLtB b a with
  | false => exact Or.inl (by simp [strLeB, h])
  | true => exact Or.inr (by simp [strLeB, strLtB_asymm h])

theorem strLeB_trans {a b c : List Char} (h1 : strLeB a b = true)
    (h2 : strLeB b c = true) : strLeB a c = true := by
  simp only [strLeB, Bool.not_eq_true'] at h1 h2 ⊢
  cases hca : strLtB c a with
  | false => rfl
  | true =>
    exfalso
    cases hab : strLtB a b with
    | true =>
      have := strLtB_trans hca hab
      rw [this] at h2
      cases h2
    | false =>
      have heq : a = b := strLtB_conn hab h1
      rw [← heq] at h2
      rw [hca] at h2
      cases h2

theorem latestRel_total : ∀ f g : FieldRecord, latestRel f g ∨ latestRel g f := by
  intro f g
  rcases keyLeB_total (sort_key g) (sort_key f) with h | h
  · exact Or.inl h
  · exact Or.inr h

theorem latestRel_trans : ∀ f g h : FieldRecord,
    latestRel f g → latestRel g h → latestRel f h := by
  intro f g h h1 h2
  exact keyLeB_trans h2 h1

theorem labelRel_total : ∀ a b : List Char, labelRel a b ∨ labelRel b a := by
  intro a b
  rcases strLeB_total (pyLower a) (pyLower b) with h | h
  · exact Or.inl h
  · exact Or.inr h

theorem labelRel_trans : ∀ a b c : List Char,
    labelRel a b → labelRel b c → labelRel a c := by
  intro a b c h1 h2
  exact strLeB_trans h1 h2

/- ------------------------------------------------------------------ -/
/- Claims C5 and C10.                                                  -/
/- ------------------------------------------------------------------ -/

/-- C5 is false as stated: a record whose version attribute is 0 receives
the same sort key as one whose version is absent (Python falsy-or), so on a
page holding an exact-label match with version 0 after one with no version
and the same date, the returned record is not the one whose
(date, version getD -1) claim key is greatest. -/
theorem aegis_C5_counterexample :
    latestClaimHolds [cxRecNoVersion, cxRecVersion0] "x".data = false := by
  decide

/-- C5 (amended): get_latest_field_details returns absent exactly when no
record's label equals the requested label, and otherwise returns a record
among the exact-label matches whose code sort key - lastModifiedDate with
absent or empty treated as the empty string, version with absent or zero
treated as -1 - is lexicographically greatest, ties among equal keys broken
arbitrarily. -/
theorem aegis_C5_theorem (fields : List FieldRecord) (field_name : List Char) :
    (get_latest_field_details fields field_name = none ↔
      fields.filter (fun f => decide (f.label = some field_name)) = []) ∧
    ∀ r, get_latest_field_details fields field_name = some r →
      r ∈ fields.filter (fun f => decide (f.label = some field_name)) ∧
      ∀ g ∈ fields.filter (fun f => decide (f.label = some field_name)),
        keyLeB (sort_key g) (sort_key r) = true := by
  haveI : IsTotal FieldRecord latestRel := ⟨latestRel_total⟩
  haveI : IsTrans FieldRecord latestRel := ⟨latestRel_trans⟩
  have hperm := List.perm_insertionSort latestRel
    (fields.filter (fun f => decide (f.label = some field_name)))
  have hsorted := List.sorted_insertionSort latestRel
    (fields.filter (fun f => decide (f.label = some field_name)))
  cases hs : List.insertionSort latestRel
      (fields.filter (fun f => decide (f.label = some field_name))) with
  | nil =>
    rw [hs] at hperm
    have hmn : fields.filter (fun f => decide (f.label = some field_name)) = [] :=
      hperm.symm.eq_nil
    unfold get_latest_field_details
    rw [hs]
    constructor
    · simp [hmn]
    · intro r hr
      simp at hr
  | cons r0 t =>
    rw [hs] at hperm hsorted
    have hr0mem : r0 ∈ fields.filter (fun f => decide (f.label = some field_name)) :=
      hperm.mem_iff.mp (List.mem_cons_self r0 t)
    unfold get_latest_field_details
    rw [hs]
    constructor
    · constructor
      · intro h
        simp at h
      · intro h
        rw [h] at hperm
        have := hperm.eq_nil
        simp at this
    · intro r hr
      have hrr : r0 = r := by simpa using hr
      subst hrr
      refine ⟨hr0mem, ?_⟩
      intro g hg
      have hgs : g ∈ r0 :: t := hperm.mem_iff.mpr hg
      rcases List.mem_cons.mp hgs with h | h
      · subst h
        exact keyLeB_refl _
      · exact List.rel_of_sorted_cons hsorted g h

/-- Witness for C5 at the concrete ph example: two records share label ph
with dates 2024-01-01 and 2025-01-01, and the 2025 record is returned and
has the greatest key among the matches. -/
theorem aegis_C5_witness :
    get_latest_field_details [c5Rec2024, c5Rec2025] "ph".data = some c5Rec2025 ∧
    c5Rec2025 ∈ [c5Rec2024, c5Rec2025].filter
      (fun f => decide (f.label = some "ph".data)) ∧
    ∀ g ∈ [c5Rec2024, c5Rec2025].filter
      (fun f => decide (f.label = some "ph".data)),
        keyLeB (sort_key g) (sort_key c5Rec2025) = true :=
  ⟨by decide,
   ((aegis_C5_theorem [c5Rec2024, c5Rec2025] "ph".data).2 c5Rec2025 (by decide)).1,
   ((aegis_C5_theorem [c5Rec2024, c5Rec2025] "ph".data).2 c5Rec2025 (by decide)).2⟩

/-- C10: a record whose version is 0 receives the same sort key as a record
whose version is absent: for two records with equal lastModifiedDate, one
with version 0 and the other with no version, the sort keys are equal. -/
theorem aegis_C10_theorem (f g : FieldRecord)
    (hd : f.lastModifiedDate = g.lastModifiedDate)
    (hf : f.version = some 0) (hg : g.version = none) :
    sort_key f = sort_key g := by
  simp [sort_key, pyOrInt, hd, hf, hg]

/-- Witness for C10 at concrete records. -/
theorem aegis_C10_witness : sort_key cxRecVersion0 = sort_key cxRecNoVersion :=
  aegis_C10_theorem cxRecVersion0 cxRecNoVersion rfl rfl rfl

/- ------------------------------------------------------------------ -/
/- Claim C8.                                                           -/
/- ------------------------------------------------------------------ -/

/-- C8: list_field_names returns exactly the truthy (present and non-empty)
labels of the page records, sorted case-insensitively, and records whose
lower-cased labels are equal keep their original relative order: for every
lower-cased value k, the subsequence of the output whose lower-casing is k
equals the corresponding subsequence of the extracted labels in page
order. -/
theorem aegis_C8_theorem (fields : List FieldRecord) :
    (list_field_names fields).Perm (fields.filterMap truthyLabel) ∧
    List.Sorted labelRel (list_field_names fields) ∧
    ∀ k : List Char,
      (list_field_names fields).filter (fun s => decide (pyLower s = k)) =
        (fields.filterMap truthyLabel).filter (fun s => decide (pyLower s = k)) := by
  haveI : IsTotal (List Char) labelRel := ⟨labelRel_total⟩
  haveI : IsTrans (List Char) labelRel := ⟨labelRel_trans⟩
  unfold list_field_names
  refine ⟨List.perm_insertionSort labelRel _, List.sorted_insertionSort labelRel _, ?_⟩
  intro k
  have hpair : ((fields.filterMap truthyLabel).filter
      (fun s => decide (pyLower s = k))).Pairwise labelRel := by
    apply List.pairwise_of_forall_mem_list
    intro a ha b hb
    have ha2 : pyLower a = k := by simpa using List.of_mem_filter ha
    have hb2 : pyLower b = k := by simpa using List.of_mem_filter hb
    show strLeB (pyLower a) (pyLower b) = true
    rw [ha2, hb2]
    exact strLeB_refl k
  have hsub : List.Sublist
      ((fields.filterMap truthyLabel).filter (fun s => decide (pyLower s = k)))
      (List.insertionSort labelRel (fields.filterMap truthyLabel)) :=
    List.sublist_insertionSort hpair (List.filter_sublist _)
  have hperm2 : List.Perm
      ((List.insertionSort labelRel (fields.filterMap truthyLabel)).filter
          (fun s => decide (pyLower s = k)))
        ((fields.filterMap truthyLabel).filter (fun s => decide (pyLower s = k))) :=
    (List.perm_insertionSort labelRel (fields.filterMap truthyLabel)).filter _
  have hcc : ((fields.filterMap truthyLabel).filter
        (fun s => decide (pyLower s = k))).filter (fun s => decide (pyLower s = k)) =
      (fields.filterMap truthyLabel).filter (fun s => decide (pyLower s = k)) := by
    rw [List.filter_eq_self]
    intro a ha
    exact (List.mem_filter.mp ha).2
  have hsub2 : List.Sublist
      ((fields.filterMap truthyLabel).filter (fun s => decide (pyLower s = k)))
      ((List.insertionSort labelRel (fields.filterMap truthyLabel)).filter
        (fun s => decide (pyLower s = k))) := by
    have h2 := hsub.filter (fun s => decide (pyLower s = k))
    rwa [hcc] at h2
  exact (hsub2.eq_of_length hperm2.length_eq.symm).symm

/- ------------------------------------------------------------------ -/
/- Claim C7.                                                           -/
/- ------------------------------------------------------------------ -/

/-- C7: list_schemas accepts both container shapes: a keyed mapping and a
sequential list holding the same schema entries in the same order produce
identical (id, accession, name) triplets, and any entry lacking an id is
silently dropped from the result. -/
theorem aegis_C7_theorem :
    (∀ entries : List (List Char × SchemaVal),
      list_schemas (.dictC entries) = list_schemas (.listC (entries.map Prod.snd))) ∧
    (∀ (pre post : List SchemaVal) (accession name : Option (List Char)),
      list_schemas (.listC (pre ++ .dict none accession name :: post)) =
        list_schemas (.listC (pre ++ post))) := by
  constructor
  · intro entries
    rfl
  · intro pre post accession name
    simp [list_schemas, List.filterMap_append]

/- ------------------------------------------------------------------ -/
/- Claim C6.                                                           -/
/- ------------------------------------------------------------------ -/

/-- C6: the mandatory-field coverage count computed by the reporter as the
size of the baseline minus the size of the baseline minus the term set
equals the size of the intersection, for every baseline and term set; and
on the example baseline a, b, c against the set a, c the coverage is 2 of
3 (the fraction 2/3) and the missing set is exactly b. -/
theorem aegis_C6_theorem :
    (∀ mandatory B : Finset (List Char),
      mandatory_covered_count mandatory B = (mandatory ∩ B).card) ∧
    mandatory_covered_count c6M c6B = 2 ∧
    c6M.card = 3 ∧
    mandatory_missing c6M c6B = {"b".data} ∧
    (mandatory_covered_count c6M c6B : ℚ) / (c6M.card : ℚ) = 2 / 3 := by
  refine ⟨?_, by decide, by decide, by decide, ?_⟩
  · intro M B
    have h := Finset.card_inter_add_card_sdiff M B
    unfold mandatory_covered_count
    omega
  · rw [show mandatory_covered_count c6M c6B = 2 from by decide,
      show c6M.card = 3 from by decide]
    norm_num
